import Mathlib

/-!
Verification of the guilay layout engine (`src/lib.rs`).

The Rust source is shallowly embedded as follows:
  * `f32` is modelled as `ℚ` (exact arithmetic; the algebra the code performs
    on lengths is addition, subtraction, multiplication and division, all of
    which `ℚ` carries).  Where the code divides by zero (`f32` would give
    `inf`/`NaN`) the `ℚ` model totalizes the quotient to `0`; every place this
    matters is flagged in the corresponding theorem.
  * `u32` node ids are modelled as `ℕ` (the code never performs arithmetic on
    ids, it only copies them).
  * the mutable `&mut [Rect]` buffer of `Node::layout` is modelled as a
    `List Rect` threaded through the recursion; the write
    `rect_buffer[curr_index] = r` becomes `List.set`, and the reborrow
    `&mut rect_buffer[curr_index..]` becomes `List.drop curr_index` with the
    unchanged prefix re-attached by `List.take curr_index ++ ·`.  Rust slice
    indexing panics out of range; `List.set` out of range is a no-op, so the
    model is faithful exactly on calls where the buffer is large enough
    (`Node.count ≤ buffer length`), which the equivalence lemmas assume.
    The `debug_assert!` statements of the source are compiled out in release
    builds and are not part of the returned value in any build, so they do
    not appear in the embedding; the theorems about the error-handling claims
    discuss them explicitly.
-/

namespace Guilay

/-- Embedding of the Rust enum `DynLen` (a dynamic length). -/
inductive DynLen where
  /-- A relative length: proportion of free space, as a ratio with the other
      relatively sized siblings. -/
  | Relative (l : ℚ)
  /-- An absolute length, independent of the parent size. -/
  | Absolute (l : ℚ)
deriving DecidableEq

/-- Embedding of the Rust enum `Layout` (orientation of the children). -/
inductive Layout where
  | Horizontal
  | Vertical
deriving DecidableEq

/-- Embedding of the Rust struct `Rect`: id, position, size and z layer. -/
structure Rect where
  id : ℕ
  pos : ℚ × ℚ
  size : ℚ × ℚ
  layer : ℚ
deriving DecidableEq

/-- Embedding of `Rect::new`: a placeholder rectangle carrying only the id. -/
def Rect.new (id : ℕ) : Rect := ⟨id, (0, 0), (0, 0), 0⟩

/-- Embedding of the Rust struct `Node`: id, orientation of the children, the
    ordered children themselves and the size policy of this node. -/
inductive Node where
  | mk (id : ℕ) (children_layout : Layout) (children : List Node) (size : DynLen)

/-- Field accessor for `Node.id`. -/
def Node.id : Node → ℕ
  | .mk i _ _ _ => i

/-- Field accessor for `Node.children_layout`. -/
def Node.children_layout : Node → Layout
  | .mk _ cl _ _ => cl

/-- Field accessor for `Node.children`. -/
def Node.children : Node → List Node
  | .mk _ _ cs _ => cs

/-- Field accessor for `Node.size`. -/
def Node.size : Node → DynLen
  | .mk _ _ _ s => s

/-- Embedding of `Node::new`: a node with an empty child list. -/
def Node.new (id : ℕ) (children_layout : Layout) (size : DynLen) : Node :=
  .mk id children_layout [] size

mutual

/-- Total number of nodes in the subtree rooted at a node (the node itself
    plus every descendant).  Not a function of the source, but the measure the
    spec calls N, used to state the count claims. -/
def Node.count : Node → ℕ
  | .mk _ _ cs _ => countKids cs + 1

/-- Sum of `Node.count` over a list of nodes. -/
def countKids : List Node → ℕ
  | [] => 0
  | c :: rest => c.count + countKids rest

end

mutual

/-- Embedding of `Node::alloc_rect_buffer`: concatenates the buffers of the
    children in order, then pushes a placeholder rectangle for the node. -/
def Node.alloc_rect_buffer : Node → List Rect
  | .mk i _ cs _ => allocKids cs ++ [Rect.new i]

/-- The child loop of `Node::alloc_rect_buffer`. -/
def allocKids : List Node → List Rect
  | [] => []
  | c :: rest => c.alloc_rect_buffer ++ allocKids rest

end

/-- The sum the source accumulates with `free_space -= l` over the children
    whose size is `Absolute` (starting from the main extent). -/
def sumAbsolute : List Node → ℚ
  | [] => 0
  | c :: rest =>
    (match c.size with
     | .Absolute l => l
     | .Relative _ => 0) + sumAbsolute rest

/-- The sum the source accumulates with `ratio_size += l` over the children
    whose size is `Relative`. -/
def sumRelative : List Node → ℚ
  | [] => 0
  | c :: rest =>
    (match c.size with
     | .Relative l => l
     | .Absolute _ => 0) + sumRelative rest

/-- Selector for the extent along the main axis of a `Layout`
    (`w` when Horizontal, `h` when Vertical), as matched in the source. -/
def mainExtent : Layout → ℚ → ℚ → ℚ
  | .Horizontal, w, _ => w
  | .Vertical, _, h => h

/-- Selector for the extent across the main axis of a `Layout`. -/
def crossExtent : Layout → ℚ → ℚ → ℚ
  | .Horizontal, _, h => h
  | .Vertical, w, _ => w

/-- The `(c_w, c_h)` computation of the child loop in `Node::layout`: the
    nested match on the layout orientation and the child size policy. -/
def childSize (cl : Layout) (w h free_space ratio_size : ℚ) : DynLen → ℚ × ℚ
  | .Absolute l =>
    (match cl with
     | .Horizontal => (l, h)
     | .Vertical => (w, l))
  | .Relative l =>
    (match cl with
     | .Horizontal => (free_space * l / ratio_size, h)
     | .Vertical => (w, free_space * l / ratio_size))

/-- The length a child takes up along the main axis of the parent: the
    component of `childSize` the source adds to `size_used`. -/
def childMain (cl : Layout) (w h free_space ratio_size : ℚ) (sz : DynLen) : ℚ :=
  match cl with
  | .Horizontal => (childSize cl w h free_space ratio_size sz).1
  | .Vertical => (childSize cl w h free_space ratio_size sz).2

/-- The `(c_x, c_y)` computation of the child loop in `Node::layout`, with
    `size_used` already incremented by the child main length. -/
def childPos (cl : Layout) (x y size_used c_w c_h : ℚ) : ℚ × ℚ :=
  match cl with
  | .Horizontal => (x + size_used - c_w, y)
  | .Vertical => (x, y + size_used - c_h)

mutual

/-- Embedding of `Node::layout`: writes the rectangles of the subtree into the
    buffer and returns the new buffer together with the count of rectangles
    written (the `usize` return value).  The Rust buffer mutation is modelled
    by returning the updated list. -/
def Node.layout : Node → List Rect → ℚ → ℚ → ℚ → ℚ → ℚ → List Rect × ℕ
  | .mk i cl cs _, rect_buffer, x, y, w, h, layer =>
    let free_space := mainExtent cl w h - sumAbsolute cs
    let ratio_size := sumRelative cs
    let res := layoutKids cl cs rect_buffer 0 0 x y w h free_space ratio_size layer
    (res.1.set res.2 ⟨i, (x, y), (w, h), layer⟩, res.2 + 1)

/-- The child loop of `Node::layout`: `curr_index` is the write cursor,
    `size_used` the running main-axis total. -/
def layoutKids : Layout → List Node → List Rect → ℕ → ℚ → ℚ → ℚ → ℚ → ℚ → ℚ → ℚ → ℚ →
    List Rect × ℕ
  | _, [], rect_buffer, curr_index, _, _, _, _, _, _, _, _ => (rect_buffer, curr_index)
  | cl, c :: rest, rect_buffer, curr_index, size_used, x, y, w, h, free_space, ratio_size,
      layer =>
    let cwh := childSize cl w h free_space ratio_size c.size
    let size_used' := size_used + childMain cl w h free_space ratio_size c.size
    let cxy := childPos cl x y size_used' cwh.1 cwh.2
    let sub := Node.layout c (rect_buffer.drop curr_index) cxy.1 cxy.2 cwh.1 cwh.2 (layer + 1)
    layoutKids cl rest (rect_buffer.take curr_index ++ sub.1) (curr_index + sub.2)
      size_used' x y w h free_space ratio_size layer

end

mutual

/-- The flat sequence of rectangles `Node::layout` writes (in order) for a
    subtree: the functional reading of the buffer discipline, proved
    equivalent to `Node.layout` below. -/
def Node.layoutRects : Node → ℚ → ℚ → ℚ → ℚ → ℚ → List Rect
  | .mk i cl cs _, x, y, w, h, layer =>
    kidsRects cl cs 0 x y w h (mainExtent cl w h - sumAbsolute cs) (sumRelative cs) layer ++
      [⟨i, (x, y), (w, h), layer⟩]

/-- The flat sequence of rectangles the child loop writes. -/
def kidsRects : Layout → List Node → ℚ → ℚ → ℚ → ℚ → ℚ → ℚ → ℚ → ℚ → List Rect
  | _, [], _, _, _, _, _, _, _, _ => []
  | cl, c :: rest, size_used, x, y, w, h, free_space, ratio_size, layer =>
    let cwh := childSize cl w h free_space ratio_size c.size
    let size_used' := size_used + childMain cl w h free_space ratio_size c.size
    let cxy := childPos cl x y size_used' cwh.1 cwh.2
    Node.layoutRects c cxy.1 cxy.2 cwh.1 cwh.2 (layer + 1) ++
      kidsRects cl rest size_used' x y w h free_space ratio_size layer

end

/-- Sum of the main-axis lengths the child loop assigns to a list of children. -/
def mainsSum (cl : Layout) (w h free_space ratio_size : ℚ) (cs : List Node) : ℚ :=
  (cs.map fun c => childMain cl w h free_space ratio_size c.size).sum

/-- `NodeAt d n m` holds when `m` is a node of the tree rooted at `n` sitting
    at depth `d` below `n` (depth 0 is `n` itself). -/
inductive NodeAt : ℕ → Node → Node → Prop where
  | refl (n : Node) : NodeAt 0 n n
  | child {d : ℕ} {c m : Node} (n : Node) (hc : c ∈ n.children) (h : NodeAt d c m) :
      NodeAt (d + 1) n m

/-- Helper to build a childless node (the orientation of a leaf is never
    consulted by the algorithm). -/
def leafNode (i : ℕ) (sz : DynLen) : Node := .mk i .Vertical [] sz

/-- Children of the scenario-B tree: two relative children of weight 1. -/
def csTwoRel : List Node := [leafNode 1 (.Relative 1), leafNode 2 (.Relative 1)]

/-- Scenario B of the spec: a horizontal root with two `Relative 1` children. -/
def sampleTwoRel : Node := .mk 0 .Horizontal csTwoRel (.Relative 1)

/-- Children of the scenario-A tree: two absolute children of length 100. -/
def csTwoAbs : List Node := [leafNode 1 (.Absolute 100), leafNode 2 (.Absolute 100)]

/-- Scenario A of the spec: a horizontal root with two `Absolute 100` children. -/
def sampleTwoAbs : Node := .mk 0 .Horizontal csTwoAbs (.Relative 1)

/-- A vertical node nested inside a horizontal root (scenario E shape). -/
def sampleNested : Node :=
  .mk 0 .Horizontal [.mk 1 .Vertical [leafNode 2 (.Relative 1)] (.Relative 1)] (.Relative 1)

/-- Scenario D of the spec: a horizontal root with a single `Absolute 200`
    child, to be laid out in width 150. -/
def sampleOverflowAbs : Node := .mk 0 .Horizontal [leafNode 1 (.Absolute 200)] (.Relative 1)

/-- A horizontal root with a single `Relative 0` child: a relative child
    exists but the total relative weight is zero. -/
def sampleZeroWeight : Node := .mk 0 .Horizontal [leafNode 1 (.Relative 0)] (.Relative 1)

/-- A horizontal root with a single `Relative 1` child (two nodes in total). -/
def sampleOneRel : Node := .mk 0 .Horizontal [leafNode 1 (.Relative 1)] (.Relative 1)

/-! Basic length and unfolding lemmas. -/

mutual

theorem layoutRects_length (n : Node) (x y w h layer : ℚ) :
    (Node.layoutRects n x y w h layer).length = n.count := by
  match n with
  | .mk i cl cs sz =>
    simp [Node.layoutRects, Node.count, kidsRects_length]

theorem kidsRects_length (cl : Layout) (cs : List Node) (su x y w h f ra layer : ℚ) :
    (kidsRects cl cs su x y w h f ra layer).length = countKids cs := by
  match cs with
  | [] => simp [kidsRects, countKids]
  | c :: rest =>
    simp [kidsRects, countKids, layoutRects_length c, kidsRects_length cl rest]

end

mutual

theorem alloc_length (n : Node) : n.alloc_rect_buffer.length = n.count := by
  match n with
  | .mk i cl cs sz =>
    simp [Node.alloc_rect_buffer, Node.count, allocKids_length]

theorem allocKids_length (cs : List Node) : (allocKids cs).length = countKids cs := by
  match cs with
  | [] => simp [allocKids, countKids]
  | c :: rest => simp [allocKids, countKids, alloc_length c, allocKids_length rest]

end

theorem count_pos (n : Node) : 1 ≤ n.count := by
  match n with
  | .mk i cl cs sz => simp [Node.count]

/-! The equivalence between the buffer-writing `Node.layout` and the flat
    sequence `Node.layoutRects`: on a buffer at least as long as the subtree
    node count, `layout` overwrites exactly the prefix of that length with
    `layoutRects` and returns that length. -/

mutual

theorem layout_spec (n : Node) (rect_buffer : List Rect) (x y w h layer : ℚ)
    (hb : n.count ≤ rect_buffer.length) :
    Node.layout n rect_buffer x y w h layer =
      (Node.layoutRects n x y w h layer ++ rect_buffer.drop n.count, n.count) := by
  match n with
  | .mk i cl cs sz =>
    have hcount : (Node.mk i cl cs sz).count = countKids cs + 1 := by simp [Node.count]
    rw [hcount] at hb ⊢
    have hk : countKids cs ≤ rect_buffer.length := by omega
    have h2 := layoutKids_spec cl cs [] rect_buffer 0 x y w h
      (mainExtent cl w h - sumAbsolute cs) (sumRelative cs) layer hk
    simp only [List.nil_append, List.length_nil, Nat.zero_add] at h2
    have hlt : countKids cs < rect_buffer.length := by omega
    have hsl : (kidsRects cl cs 0 x y w h (mainExtent cl w h - sumAbsolute cs)
        (sumRelative cs) layer).length = countKids cs := kidsRects_length ..
    rw [Node.layout, h2]
    rw [List.set_append_right _ _ (le_of_eq hsl), hsl, Nat.sub_self,
      List.drop_eq_getElem_cons hlt, List.set_cons_zero]
    rw [Node.layoutRects]
    simp [List.append_assoc]

theorem layoutKids_spec (cl : Layout) (cs : List Node) (P rest : List Rect)
    (su x y w h f ra layer : ℚ) (hb : countKids cs ≤ rest.length) :
    layoutKids cl cs (P ++ rest) P.length su x y w h f ra layer =
      (P ++ kidsRects cl cs su x y w h f ra layer ++ rest.drop (countKids cs),
        P.length + countKids cs) := by
  match cs with
  | [] => simp [layoutKids, kidsRects, countKids]
  | c :: rest' =>
    have hck : countKids (c :: rest') = c.count + countKids rest' := by simp [countKids]
    rw [hck] at hb
    have hc : c.count ≤ rest.length := by omega
    rw [layoutKids]
    rw [List.drop_left, List.take_left, layout_spec c rest _ _ _ _ _ hc]
    have hlen : P.length + c.count =
        (P ++ Node.layoutRects c (childPos cl x y
            (su + childMain cl w h f ra c.size)
            (childSize cl w h f ra c.size).1 (childSize cl w h f ra c.size).2).1
          (childPos cl x y (su + childMain cl w h f ra c.size)
            (childSize cl w h f ra c.size).1 (childSize cl w h f ra c.size).2).2
          (childSize cl w h f ra c.size).1 (childSize cl w h f ra c.size).2
          (layer + 1)).length := by
      simp [layoutRects_length]
    rw [← List.append_assoc, hlen,
      layoutKids_spec cl rest' _ (rest.drop c.count) _ x y w h f ra layer
        (by simp; omega)]
    rw [kidsRects]
    simp only [List.drop_drop, List.append_assoc, List.length_append,
      layoutRects_length, hck]
    rw [Nat.add_assoc]

end

theorem mainsSum_nil (cl : Layout) (w h f ra : ℚ) : mainsSum cl w h f ra [] = 0 := rfl

theorem mainsSum_cons (cl : Layout) (w h f ra : ℚ) (c : Node) (rest : List Node) :
    mainsSum cl w h f ra (c :: rest) =
      childMain cl w h f ra c.size + mainsSum cl w h f ra rest := by
  simp [mainsSum]

theorem layoutRects_own (n : Node) (x y w h layer : ℚ) :
    (Node.layoutRects n x y w h layer)[n.count - 1]? =
      some ⟨n.id, (x, y), (w, h), layer⟩ := by
  match n with
  | .mk i cl cs sz =>
    rw [Node.layoutRects]
    have hsl := kidsRects_length cl cs 0 x y w h
      (mainExtent cl w h - sumAbsolute cs) (sumRelative cs) layer
    have hc : (Node.mk i cl cs sz).count - 1 = countKids cs := by simp [Node.count]
    rw [hc, ← hsl, List.getElem?_concat_length]
    simp [Node.id]

theorem countKids_take_add (i : ℕ) (cs : List Node) (c : Node) (hc : cs[i]? = some c) :
    countKids (cs.take i) + c.count ≤ countKids cs := by
  induction i generalizing cs with
  | zero =>
    match cs, hc with
    | c0 :: rest, hc =>
      have hcc : c0 = c := by simpa using hc
      subst hcc
      simp [countKids]
  | succ i ih =>
    match cs, hc with
    | c0 :: rest, hc =>
      have h2 := ih rest (by simpa using hc)
      simp [countKids]
      omega

theorem kidsRects_child (cl : Layout) (i : ℕ) (cs : List Node) (c : Node)
    (hc : cs[i]? = some c) (su x y w h f ra layer : ℚ) :
    (kidsRects cl cs su x y w h f ra layer)[countKids (cs.take i) + (c.count - 1)]? =
      some ⟨c.id,
        (match cl with
         | .Horizontal => (x + (su + mainsSum cl w h f ra (cs.take i)), y)
         | .Vertical => (x, y + (su + mainsSum cl w h f ra (cs.take i)))),
        childSize cl w h f ra c.size, layer + 1⟩ := by
  induction i generalizing cs su with
  | zero =>
    match cs, hc with
    | c0 :: rest, hc =>
      have hcc : c0 = c := by simpa using hc
      subst hcc
      rw [kidsRects]
      have hlen := layoutRects_length c0
        (childPos cl x y (su + childMain cl w h f ra c0.size)
          (childSize cl w h f ra c0.size).1 (childSize cl w h f ra c0.size).2).1
        (childPos cl x y (su + childMain cl w h f ra c0.size)
          (childSize cl w h f ra c0.size).1 (childSize cl w h f ra c0.size).2).2
        (childSize cl w h f ra c0.size).1 (childSize cl w h f ra c0.size).2 (layer + 1)
      have hpos : countKids ((c0 :: rest).take 0) + (c0.count - 1) = c0.count - 1 := by
        simp [countKids]
      have hb : c0.count - 1 < (Node.layoutRects c0
          (childPos cl x y (su + childMain cl w h f ra c0.size)
            (childSize cl w h f ra c0.size).1 (childSize cl w h f ra c0.size).2).1
          (childPos cl x y (su + childMain cl w h f ra c0.size)
            (childSize cl w h f ra c0.size).1 (childSize cl w h f ra c0.size).2).2
          (childSize cl w h f ra c0.size).1 (childSize cl w h f ra c0.size).2
          (layer + 1)).length := by
        rw [hlen]
        have := count_pos c0
        omega
      rw [hpos, List.getElem?_append_left hb, layoutRects_own]
      cases cl <;> simp [childPos, childMain, mainsSum] <;> ring_nf
  | succ i ih =>
    match cs, hc with
    | c0 :: rest, hc =>
      have hc' : rest[i]? = some c := by simpa using hc
      rw [kidsRects]
      have hlen := layoutRects_length c0
        (childPos cl x y (su + childMain cl w h f ra c0.size)
          (childSize cl w h f ra c0.size).1 (childSize cl w h f ra c0.size).2).1
        (childPos cl x y (su + childMain cl w h f ra c0.size)
          (childSize cl w h f ra c0.size).1 (childSize cl w h f ra c0.size).2).2
        (childSize cl w h f ra c0.size).1 (childSize cl w h f ra c0.size).2 (layer + 1)
      have hpos : countKids ((c0 :: rest).take (i + 1)) + (c.count - 1) =
          c0.count + (countKids (rest.take i) + (c.count - 1)) := by
        simp [countKids, List.take_succ_cons]
        omega
      rw [hpos, List.getElem?_append_right (by omega), hlen]
      have hidx : c0.count + (countKids (rest.take i) + (c.count - 1)) - c0.count =
          countKids (rest.take i) + (c.count - 1) := by omega
      rw [hidx, ih rest hc' (su + childMain cl w h f ra c0.size)]
      cases cl <;> simp [mainsSum_cons, List.take_succ_cons] <;> ring_nf

theorem mem_kidsRects (cl : Layout) (cs : List Node) (su x y w h f ra L : ℚ) (r : Rect)
    (hr : r ∈ kidsRects cl cs su x y w h f ra L) :
    ∃ c ∈ cs, ∃ x' y' w' h' : ℚ, r ∈ Node.layoutRects c x' y' w' h' (L + 1) := by
  induction cs generalizing su with
  | nil => simp [kidsRects] at hr
  | cons c0 rest ih =>
    rw [kidsRects] at hr
    rcases List.mem_append.1 hr with hl | hrr
    · exact ⟨c0, List.mem_cons_self .., _, _, _, _, hl⟩
    · obtain ⟨c, hcm, x', y', w', h', hm⟩ := ih _ hrr
      exact ⟨c, List.mem_cons_of_mem _ hcm, x', y', w', h', hm⟩

theorem kidsRects_mem_of_child (cl : Layout) (cs : List Node) (c : Node) (hmem : c ∈ cs)
    (su x y w h f ra L : ℚ) :
    ∃ x' y' w' h' : ℚ, ∀ r ∈ Node.layoutRects c x' y' w' h' (L + 1),
      r ∈ kidsRects cl cs su x y w h f ra L := by
  induction hmem generalizing su with
  | head rest =>
    refine ⟨(childPos cl x y (su + childMain cl w h f ra c.size)
        (childSize cl w h f ra c.size).1 (childSize cl w h f ra c.size).2).1,
      (childPos cl x y (su + childMain cl w h f ra c.size)
        (childSize cl w h f ra c.size).1 (childSize cl w h f ra c.size).2).2,
      (childSize cl w h f ra c.size).1, (childSize cl w h f ra c.size).2,
      fun r hr => ?_⟩
    rw [kidsRects]
    exact List.mem_append_left _ hr
  | tail c0 hmem ih =>
    obtain ⟨x', y', w', h', hsub⟩ := ih (su + childMain cl w h f ra c0.size)
    refine ⟨x', y', w', h', fun r hr => ?_⟩
    rw [kidsRects]
    exact List.mem_append_right _ (hsub r hr)

theorem layoutRects_mem_depth (n : Node) (x y w h L : ℚ) (r : Rect)
    (hr : r ∈ Node.layoutRects n x y w h L) :
    ∃ (d : ℕ) (m : Node), NodeAt d n m ∧ r.id = m.id ∧ r.layer = L + d := by
  match n with
  | .mk i cl cs sz =>
    rw [Node.layoutRects] at hr
    rcases List.mem_append.1 hr with hk | ho
    · obtain ⟨c, hcmem, x', y', w', h', hr'⟩ := mem_kidsRects _ _ _ _ _ _ _ _ _ _ _ hk
      obtain ⟨d, m, hat, hid, hlay⟩ := layoutRects_mem_depth c x' y' w' h' (L + 1) r hr'
      refine ⟨d + 1, m, NodeAt.child _ (by simpa [Node.children] using hcmem) hat, hid, ?_⟩
      rw [hlay]
      push_cast
      ring
    · have hro : r = ⟨i, (x, y), (w, h), L⟩ := by simpa using ho
      subst hro
      exact ⟨0, .mk i cl cs sz, NodeAt.refl _, by simp [Node.id], by simp⟩
termination_by sizeOf n
decreasing_by
  have := List.sizeOf_lt_of_mem hcmem
  simp only [Node.mk.sizeOf_spec]
  omega

theorem nodeAt_mem_rect {d : ℕ} {n m : Node} (hat : NodeAt d n m) (x y w h L : ℚ) :
    ∃ r ∈ Node.layoutRects n x y w h L, r.id = m.id ∧ r.layer = L + d := by
  induction hat generalizing x y w h L with
  | refl n =>
    refine ⟨⟨n.id, (x, y), (w, h), L⟩, ?_, by simp, by simp⟩
    match n with
    | .mk i cl cs sz =>
      rw [Node.layoutRects]
      simp [Node.id]
  | child n hc hat ih =>
    match n with
    | .mk i cl cs sz =>
      have hc' := (by simpa [Node.children] using hc : _ ∈ cs)
      obtain ⟨x', y', w', h', hsub⟩ := kidsRects_mem_of_child cl cs _ hc' 0 x y w h
        (mainExtent cl w h - sumAbsolute cs) (sumRelative cs) L
      obtain ⟨r, hrmem, hid, hlay⟩ := ih x' y' w' h' (L + 1)
      refine ⟨r, ?_, hid, ?_⟩
      · rw [Node.layoutRects]
        exact List.mem_append_left _ (hsub r hrmem)
      · rw [hlay]
        push_cast
        ring

theorem mainsSum_eq (cl : Layout) (w h f ra : ℚ) (cs : List Node) :
    mainsSum cl w h f ra cs = sumAbsolute cs + f * sumRelative cs / ra := by
  induction cs with
  | nil => simp [mainsSum, sumAbsolute, sumRelative]
  | cons c rest ih =>
    rw [mainsSum_cons, ih]
    show childMain cl w h f ra c.size + _ = _
    rw [sumAbsolute, sumRelative]
    cases hsz : c.size <;> cases cl <;>
      simp [childMain, childSize, hsz] <;> ring

/-- C1: for every node tree with N total nodes, `alloc_rect_buffer` returns a
    sequence of length exactly N, and a layout call on a buffer that can hold
    the tree returns exactly N as its count of rectangles written. -/
theorem count_invariant (n : Node) (rect_buffer : List Rect) (x y w h layer : ℚ)
    (hb : n.count ≤ rect_buffer.length) :
    n.alloc_rect_buffer.length = n.count ∧
      (Node.layout n rect_buffer x y w h layer).2 = n.count := by
  refine ⟨alloc_length n, ?_⟩
  rw [layout_spec n rect_buffer x y w h layer hb]

theorem count_invariant_witness :
    sampleTwoRel.count ≤ sampleTwoRel.alloc_rect_buffer.length ∧
      (sampleTwoRel.alloc_rect_buffer.length = sampleTwoRel.count ∧
        (Node.layout sampleTwoRel sampleTwoRel.alloc_rect_buffer 0 0 400 300 0).2 =
          sampleTwoRel.count) :=
  ⟨by decide,
   count_invariant sampleTwoRel sampleTwoRel.alloc_rect_buffer 0 0 400 300 0 (by decide)⟩

/-- C4: the buffer is written in depth-first postorder: the rectangle of the
    node itself lands at the slot immediately after the `countKids` slots
    holding all the rectangles of its descendants (which are exactly the
    child-loop output), and it carries the id, position, size and layer the
    call received. -/
theorem layout_postorder_self_last (i : ℕ) (cl : Layout) (cs : List Node) (sz : DynLen)
    (rect_buffer : List Rect) (x y w h layer : ℚ)
    (hb : (Node.mk i cl cs sz).count ≤ rect_buffer.length) :
    ((Node.layout (.mk i cl cs sz) rect_buffer x y w h layer).1)[countKids cs]? =
        some ⟨i, (x, y), (w, h), layer⟩ ∧
      ((Node.layout (.mk i cl cs sz) rect_buffer x y w h layer).1).take (countKids cs) =
        kidsRects cl cs 0 x y w h (mainExtent cl w h - sumAbsolute cs) (sumRelative cs)
          layer ∧
      (kidsRects cl cs 0 x y w h (mainExtent cl w h - sumAbsolute cs) (sumRelative cs)
          layer).length = countKids cs := by
  rw [layout_spec _ _ _ _ _ _ _ hb, Node.layoutRects]
  refine ⟨?_, ?_, kidsRects_length ..⟩
  · rw [List.append_assoc, List.getElem?_append_right (le_of_eq (kidsRects_length ..)),
      kidsRects_length]
    simp
  · rw [List.append_assoc, List.take_left' (kidsRects_length ..)]

theorem layout_postorder_self_last_witness :
    (Node.mk 0 .Horizontal csTwoRel (.Relative 1)).count ≤
        (Node.mk 0 .Horizontal csTwoRel (.Relative 1)).alloc_rect_buffer.length ∧
      ((Node.layout (.mk 0 .Horizontal csTwoRel (.Relative 1))
          (Node.mk 0 .Horizontal csTwoRel (.Relative 1)).alloc_rect_buffer
          0 0 400 300 0).1)[countKids csTwoRel]? =
        some ⟨0, (0, 0), (400, 300), 0⟩ :=
  ⟨by decide,
   (layout_postorder_self_last 0 .Horizontal csTwoRel (.Relative 1)
      (Node.mk 0 .Horizontal csTwoRel (.Relative 1)).alloc_rect_buffer
      0 0 400 300 0 (by decide)).1⟩

/-- C5: a rectangle is written with layer L + d exactly for the nodes at
    depth d below the node the call with base layer L was made on: every
    rectangle in the output belongs to a node of the tree and carries layer
    L + its depth, and every node of the tree has such a rectangle in the
    output. -/
theorem layer_eq_base_add_depth (n : Node) (x y w h L : ℚ) :
    (∀ r ∈ Node.layoutRects n x y w h L,
        ∃ (d : ℕ) (m : Node), NodeAt d n m ∧ r.id = m.id ∧ r.layer = L + d) ∧
      (∀ (d : ℕ) (m : Node), NodeAt d n m →
        ∃ r ∈ Node.layoutRects n x y w h L, r.id = m.id ∧ r.layer = L + d) :=
  ⟨fun r hr => layoutRects_mem_depth n x y w h L r hr,
   fun _ _ hat => nodeAt_mem_rect hat x y w h L⟩

theorem layer_eq_base_add_depth_witness :
    NodeAt 1 sampleNested (Node.mk 1 .Vertical [leafNode 2 (.Relative 1)] (.Relative 1)) ∧
      ∃ r ∈ Node.layoutRects sampleNested 0 0 10 10 0,
        r.id = (Node.mk 1 .Vertical [leafNode 2 (.Relative 1)] (.Relative 1)).id ∧
          r.layer = 0 + ((1 : ℕ) : ℚ) := by
  have hat : NodeAt 1 sampleNested
      (Node.mk 1 .Vertical [leafNode 2 (.Relative 1)] (.Relative 1)) :=
    NodeAt.child _ (by simp [sampleNested, Node.children]) (NodeAt.refl _)
  exact ⟨hat, (layer_eq_base_add_depth sampleNested 0 0 10 10 0).2 1 _ hat⟩

/-- C6 counterexample: a horizontal node of width 300 whose two children are
    both `Absolute 100` assigns main-axis lengths summing to 200, not to the
    main extent 300 — the claim fails for nodes all of whose children are
    absolutely sized (the leftover space is never assigned). -/
theorem partition_cex_absolute_children :
    mainsSum .Horizontal 300 100
        (mainExtent .Horizontal 300 100 - sumAbsolute csTwoAbs) (sumRelative csTwoAbs)
        csTwoAbs = 200 ∧
      ¬ (mainsSum .Horizontal 300 100
          (mainExtent .Horizontal 300 100 - sumAbsolute csTwoAbs) (sumRelative csTwoAbs)
          csTwoAbs = mainExtent .Horizontal 300 100) := by
  constructor <;>
    simp [mainsSum, csTwoAbs, leafNode, childMain, childSize, sumAbsolute, sumRelative,
      mainExtent, Node.size] <;> norm_num

/-- C6 amended: for every node with at least one `Relative` child of nonzero
    total relative weight, the sum of the main-axis lengths assigned to its
    direct children equals its main-axis extent exactly (in the exact
    arithmetic of the model). -/
theorem partition_invariant_of_relative (cl : Layout) (cs : List Node) (w h : ℚ)
    (hra : sumRelative cs ≠ 0) :
    mainsSum cl w h (mainExtent cl w h - sumAbsolute cs) (sumRelative cs) cs =
      mainExtent cl w h := by
  rw [mainsSum_eq, mul_div_assoc, div_self hra, mul_one]
  ring

theorem partition_invariant_of_relative_witness :
    sumRelative csTwoRel ≠ 0 ∧
      mainsSum .Horizontal 400 300 (mainExtent .Horizontal 400 300 - sumAbsolute csTwoRel)
        (sumRelative csTwoRel) csTwoRel = mainExtent .Horizontal 400 300 :=
  ⟨by norm_num [sumRelative, csTwoRel, leafNode, Node.size],
   partition_invariant_of_relative .Horizontal csTwoRel 400 300
     (by norm_num [sumRelative, csTwoRel, leafNode, Node.size])⟩

/-- C10: on a buffer of length at least the node count N, layout only writes
    the first N slots: the buffer keeps its length and every slot at index N
    or beyond is unchanged. -/
theorem layout_frame_condition (n : Node) (rect_buffer : List Rect) (x y w h layer : ℚ)
    (hb : n.count ≤ rect_buffer.length) :
    ((Node.layout n rect_buffer x y w h layer).1).length = rect_buffer.length ∧
      ∀ j : ℕ, n.count ≤ j →
        ((Node.layout n rect_buffer x y w h layer).1)[j]? = rect_buffer[j]? := by
  rw [layout_spec n rect_buffer x y w h layer hb]
  constructor
  · simp [layoutRects_length]
    omega
  · intro j hj
    rw [List.getElem?_append_right (by rw [layoutRects_length]; omega)]
    rw [layoutRects_length, List.getElem?_drop]
    congr 1
    omega

theorem layout_frame_condition_witness :
    sampleTwoRel.count ≤ (sampleTwoRel.alloc_rect_buffer ++ [Rect.new 9]).length ∧
      ((Node.layout sampleTwoRel (sampleTwoRel.alloc_rect_buffer ++ [Rect.new 9])
            0 0 400 300 0).1)[3]? =
        (sampleTwoRel.alloc_rect_buffer ++ [Rect.new 9])[3]? :=
  ⟨by decide,
   (layout_frame_condition sampleTwoRel (sampleTwoRel.alloc_rect_buffer ++ [Rect.new 9])
      0 0 400 300 0 (by decide)).2 3 (by decide)⟩

/-- C2: the child loop gives every child the main-axis length `l` when its
    size is `Absolute l` and `free_space * r / total_weight` when it is
    `Relative r`, where `free_space` is the main extent of the parent minus
    the sum of the `Absolute` child lengths and `total_weight` the sum of the
    `Relative` weights; the cross-axis length of every child is the full
    cross extent of the parent.  Stated on the rectangle written for child
    `i` of the laid out node. -/
theorem child_main_cross_size (nid : ℕ) (cl : Layout) (cs : List Node) (sz : DynLen)
    (x y w h layer : ℚ) (i : ℕ) (c : Node) (hc : cs[i]? = some c) :
    ∃ r : Rect,
      (Node.layoutRects (.mk nid cl cs sz) x y w h layer)[countKids (cs.take i) +
          (c.count - 1)]? = some r ∧
        r.id = c.id ∧
        (∀ l : ℚ, c.size = .Absolute l → mainExtent cl r.size.1 r.size.2 = l) ∧
        (∀ q : ℚ, c.size = .Relative q → mainExtent cl r.size.1 r.size.2 =
          (mainExtent cl w h - sumAbsolute cs) * q / sumRelative cs) ∧
        crossExtent cl r.size.1 r.size.2 = crossExtent cl w h := by
  have hkey := kidsRects_child cl i cs c hc 0 x y w h
    (mainExtent cl w h - sumAbsolute cs) (sumRelative cs) layer
  rw [Node.layoutRects]
  have hidx : countKids (cs.take i) + (c.count - 1) <
      (kidsRects cl cs 0 x y w h (mainExtent cl w h - sumAbsolute cs) (sumRelative cs)
        layer).length := by
    rw [kidsRects_length]
    have h1 := countKids_take_add i cs c hc
    have h2 := count_pos c
    omega
  rw [List.getElem?_append_left hidx, hkey]
  refine ⟨_, rfl, rfl, ?_, ?_, ?_⟩
  · intro l hl
    rw [hl]
    cases cl <;> simp [childSize, mainExtent]
  · intro q hq
    rw [hq]
    cases cl <;> simp [childSize, mainExtent]
  · cases hsz : c.size <;> cases cl <;> simp [childSize, crossExtent, hsz]

theorem child_main_cross_size_witness :
    (csTwoRel[1]? = some (leafNode 2 (.Relative 1))) ∧
      ∃ r : Rect,
        (Node.layoutRects (.mk 0 .Horizontal csTwoRel (.Relative 1))
            0 0 400 300 0)[countKids (csTwoRel.take 1) +
            ((leafNode 2 (.Relative 1)).count - 1)]? = some r ∧
          r.id = (leafNode 2 (.Relative 1)).id ∧
          (∀ l : ℚ, (leafNode 2 (.Relative 1)).size = .Absolute l →
            mainExtent .Horizontal r.size.1 r.size.2 = l) ∧
          (∀ q : ℚ, (leafNode 2 (.Relative 1)).size = .Relative q →
            mainExtent .Horizontal r.size.1 r.size.2 =
              (mainExtent .Horizontal 400 300 - sumAbsolute csTwoRel) * q /
                sumRelative csTwoRel) ∧
          crossExtent .Horizontal r.size.1 r.size.2 =
            crossExtent .Horizontal 400 300 :=
  ⟨rfl,
   child_main_cross_size 0 .Horizontal csTwoRel (.Relative 1) 0 0 400 300 0 1
     (leafNode 2 (.Relative 1)) rfl⟩

/-- C3: the children are packed contiguously in declaration order from the
    origin of the node: the rectangle written for child `i` has main-axis
    position equal to the main-axis origin of the node plus the sum of the
    main-axis lengths of children `0..i-1`, and cross-axis position equal to
    the cross-axis origin of the node. -/
theorem child_packing_pos (nid : ℕ) (cl : Layout) (cs : List Node) (sz : DynLen)
    (x y w h layer : ℚ) (i : ℕ) (c : Node) (hc : cs[i]? = some c) :
    ∃ r : Rect,
      (Node.layoutRects (.mk nid cl cs sz) x y w h layer)[countKids (cs.take i) +
          (c.count - 1)]? = some r ∧
        r.id = c.id ∧
        mainExtent cl r.pos.1 r.pos.2 =
          mainExtent cl x y + mainsSum cl w h (mainExtent cl w h - sumAbsolute cs)
            (sumRelative cs) (cs.take i) ∧
        crossExtent cl r.pos.1 r.pos.2 = crossExtent cl x y := by
  have hkey := kidsRects_child cl i cs c hc 0 x y w h
    (mainExtent cl w h - sumAbsolute cs) (sumRelative cs) layer
  rw [Node.layoutRects]
  have hidx : countKids (cs.take i) + (c.count - 1) <
      (kidsRects cl cs 0 x y w h (mainExtent cl w h - sumAbsolute cs) (sumRelative cs)
        layer).length := by
    rw [kidsRects_length]
    have h1 := countKids_take_add i cs c hc
    have h2 := count_pos c
    omega
  rw [List.getElem?_append_left hidx, hkey]
  refine ⟨_, rfl, rfl, ?_, ?_⟩
  · cases cl <;> simp [mainExtent]
  · cases cl <;> simp [crossExtent]

theorem child_packing_pos_witness :
    (csTwoRel[1]? = some (leafNode 2 (.Relative 1))) ∧
      ∃ r : Rect,
        (Node.layoutRects (.mk 0 .Horizontal csTwoRel (.Relative 1))
            0 0 400 300 0)[countKids (csTwoRel.take 1) +
            ((leafNode 2 (.Relative 1)).count - 1)]? = some r ∧
          r.id = (leafNode 2 (.Relative 1)).id ∧
          mainExtent .Horizontal r.pos.1 r.pos.2 =
            mainExtent .Horizontal 0 0 + mainsSum .Horizontal 400 300
              (mainExtent .Horizontal 400 300 - sumAbsolute csTwoRel)
              (sumRelative csTwoRel) (csTwoRel.take 1) ∧
          crossExtent .Horizontal r.pos.1 r.pos.2 = crossExtent .Horizontal 0 0 :=
  ⟨rfl,
   child_packing_pos 0 .Horizontal csTwoRel (.Relative 1) 0 0 400 300 0 1
     (leafNode 2 (.Relative 1)) rfl⟩

/-- C7 failing input, scenario D of the spec: a horizontal root of width 150
    with a single `Absolute 200` child.  The release-build semantics of the
    code (the embedding) reports no error of any kind: the return type has no
    error channel, the call returns the full count 2 as success, and the
    child rectangle is written with width 200, overflowing the 150 available
    (in a debug build the source instead panics on
    `debug_assert!(free_space > 0.0)`, which is not a catchable
    InsufficientSpace error either).  This contradicts the claim that an
    explicit, catchable InsufficientSpace error is raised. -/
theorem insufficient_space_unchecked :
    Node.layout sampleOverflowAbs sampleOverflowAbs.alloc_rect_buffer 0 0 150 100 0 =
      ([⟨1, (0, 0), (200, 100), 1⟩, ⟨0, (0, 0), (150, 100), 0⟩], 2) := by
  simp [sampleOverflowAbs, leafNode, Node.layout, layoutKids, Node.alloc_rect_buffer,
    allocKids, childSize, childMain, childPos, mainExtent, sumAbsolute, sumRelative,
    Node.size, Rect.new]

/-- C8 failing input: a horizontal root of width 100 whose only child is
    `Relative 0` — a relative child exists while the total relative weight
    is zero.  The code divides by the zero total weight and returns the full
    count 2 as success; no ZeroWeightDivision error exists anywhere in the
    code.  In the `f32` source `100 * 0 / 0` is NaN, silently stored as the
    child width; the exact model totalizes the division to 0.  Either way
    the claim that an explicit error is reported fails. -/
theorem zero_weight_unchecked :
    Node.layout sampleZeroWeight sampleZeroWeight.alloc_rect_buffer 0 0 100 100 0 =
      ([⟨1, (0, 0), (0, 100), 1⟩, ⟨0, (0, 0), (100, 100), 0⟩], 2) := by
  simp [sampleZeroWeight, leafNode, Node.layout, layoutKids, Node.alloc_rect_buffer,
    allocKids, childSize, childMain, childPos, mainExtent, sumAbsolute, sumRelative,
    Node.size, Rect.new]

/-- C9 failing input: a two-node tree laid out into a buffer of length 1.
    The child rectangle is written into slot 0 before the overflow is ever
    noticed, so the buffer holds partial output; the write of the rectangle
    of the root targets index 1, out of range (the source panics there — a
    `debug_assert!` in debug builds, a slice bounds panic in release — the
    model totalizes the write to a no-op), and the returned count 2 exceeds
    the buffer length.  No BufferTooSmall error value exists in the code and
    the call is not atomic, contradicting the claim. -/
theorem buffer_too_small_partial_write :
    Node.layout sampleOneRel [Rect.new 7] 0 0 100 100 0 =
      ([⟨1, (0, 0), (100, 100), 1⟩], 2) := by
  simp [sampleOneRel, leafNode, Node.layout, layoutKids, childSize, childMain, childPos,
    mainExtent, sumAbsolute, sumRelative, Node.size, Rect.new]

end Guilay
